import Mathlib

/-!
Verification development for the startup-dependency scheduler
`proton::initializer::TaskRunner` (src/searchcore/.../initializer/task_runner.cpp).

The scheduler walks a directed graph of initialization tasks.  Each task has a
tri-state lifecycle (`BLOCKED → RUNNING → DONE`) and a fixed list of dependency
references.  Following the design notes of the specification (§9), shared
`InitializerTask::SP` references are modelled as an arena of tasks addressed by
stable index: a graph with `n` tasks has task identifiers `Fin n`, and the
per-poll `TaskSet checked` (keyed by task pointer identity in the source)
becomes a `Finset (Fin n)`.

All control-plane operations (`pollTask`, `setTaskRunning`, `setTaskDone`,
`internalRunTask`) run serialized on the context executor in the source; they
are modelled as pure transformations of a scheduler state, and the only
nondeterminism of the worker domain — the order in which in-flight task bodies
finish and post their completion back to the control domain — is modelled by a
step relation that picks any in-flight task and runs its completion.
-/

namespace Initializer

/-- Task lifecycle state, `enum class State { BLOCKED, RUNNING, DONE }`
of `InitializerTask`. -/
inductive State where
  | BLOCKED
  | RUNNING
  | DONE
deriving DecidableEq, Repr

/-- A task graph: an arena of `n` tasks; `deps t` is the ordered, fixed list
of dependencies of task `t` (`InitializerTask::getDependencies()`). -/
structure TaskGraph where
  n : Nat
  deps : Fin n → List (Fin n)

/-- Accumulator of the readiness traversal: the `TaskList &readyTasks` being
built and the per-poll `TaskSet &checked` of visited tasks. -/
abbrev RTAcc (g : TaskGraph) := List (Fin g.n) × Finset (Fin g.n)

/-- The `for (const auto &dep : deps)` loop of `TaskRunner::getReadyTasks`,
abstracted over the recursive call `rec` into blocked dependencies (tied back
to the traversal itself in `getReadyTasksDeps`): returns the final value of
the `ready` flag together with the updated accumulator.  A `RUNNING`
dependency clears `ready` and is skipped; a `DONE` dependency leaves `ready`
alone; a `BLOCKED` dependency clears `ready` and is recursed into. -/
def getReadyTasksDepsAux (g : TaskGraph) (st : Fin g.n → State)
    (rec : Fin g.n → RTAcc g → RTAcc g) :
    List (Fin g.n) → RTAcc g → Bool × RTAcc g
  | [], acc => (true, acc)
  | dep :: rest, acc =>
    match st dep with
    | State.RUNNING =>
      let r := getReadyTasksDepsAux g st rec rest acc
      (false, r.2)
    | State.DONE => getReadyTasksDepsAux g st rec rest acc
    | State.BLOCKED =>
      let acc1 := rec dep acc
      let r := getReadyTasksDepsAux g st rec rest acc1
      (false, r.2)

/-- `TaskRunner::getReadyTasks(task, readyTasks, checked)`: depth-first
readiness traversal.  Stops at a task that is not `BLOCKED`, deduplicates via
`checked`, scans the dependencies in order (see `getReadyTasksDepsAux`), and
appends the task to `readyTasks` when every dependency is `DONE`.

The `fuel` argument makes the recursion structurally terminating; each nested
call inserts a fresh task into `checked` first, so recursion depth is bounded
by the number of tasks and fuel `g.n + 1` reproduces the unbounded source
recursion exactly (theorem `getReadyTasks_fuel_stable`). -/
def getReadyTasks (g : TaskGraph) (st : Fin g.n → State) :
    Nat → Fin g.n → RTAcc g → RTAcc g
  | 0, _, acc => acc
  | f + 1, task, acc =>
    if st task ≠ State.BLOCKED then
      acc -- task running or done, all dependencies done
    else if task ∈ acc.2 then
      acc -- task already checked from another depender
    else
      let r := getReadyTasksDepsAux g st (fun d a => getReadyTasks g st f d a)
        (g.deps task) (acc.1, insert task acc.2)
      if r.1 then (r.2.1 ++ [task], r.2.2) else r.2

/-- The dependency loop with the recursive call at a given fuel level; all
the unfolding equations of the source's mutual recursion hold for it by
`rfl`. -/
def getReadyTasksDeps (g : TaskGraph) (st : Fin g.n → State) (fuel : Nat) :
    List (Fin g.n) → RTAcc g → Bool × RTAcc g :=
  getReadyTasksDepsAux g st (fun d a => getReadyTasks g st fuel d a)

/-- The ready list computed by one poll: `pollTask` runs `getReadyTasks` on
the root task with a fresh `readyTasks` list and a fresh `checked` set. -/
def readyList (g : TaskGraph) (st : Fin g.n → State) (root : Fin g.n) :
    List (Fin g.n) :=
  (getReadyTasks g st (g.n + 1) root ([], ∅)).1

/-- Control-domain state of one scheduling run: the task states, the
`TaskRunner::_runningTasks` counter, the set of in-flight tasks (dispatched to
the worker executor, completion not yet processed), and the `Context`'s done
flag.

Modelled from the spec: the `Context` class itself lives in task_runner.h,
which is not part of the shown source; per spec §3 it couples the root task,
the context executor and a one-shot completion callback guarded by a done
flag that is "set immediately before invocation".  `doneCount` counts
completion-callback invocations and `dispatchCount`/`pollCount` are ghost
instrumentation counting how often each task was scheduled and how often
`pollTask` was entered. -/
structure SchedState (g : TaskGraph) where
  st : Fin g.n → State
  runningTasks : Nat
  inflight : Finset (Fin g.n)
  doneFlag : Bool
  doneCount : Nat
  dispatchCount : Fin g.n → Nat
  pollCount : Nat

/-- `TaskRunner::setTaskRunning`: transition the task to `RUNNING` and
increment the running counter (run by context executor). -/
def setTaskRunning (g : TaskGraph) (t : Fin g.n) (s : SchedState g) :
    SchedState g :=
  { s with st := Function.update s.st t State.RUNNING,
           runningTasks := s.runningTasks + 1,
           dispatchCount := Function.update s.dispatchCount t (s.dispatchCount t + 1) }

/-- `TaskRunner::internalRunTask`: assert the task is `BLOCKED` (proved as
`readyList_sound` / the reachable-state invariant), set it running, and submit
its body to the worker executor — the submission is modelled by adding the
task to the in-flight set; the body's later completion is a `Step`. -/
def internalRunTask (g : TaskGraph) (t : Fin g.n) (s : SchedState g) :
    SchedState g :=
  let s1 := setTaskRunning g t s
  { s1 with inflight := insert t s1.inflight }

/-- `TaskRunner::internalRunTasks`: dispatch every task of the ready list in
order. -/
def internalRunTasks (g : TaskGraph) (l : List (Fin g.n)) (s : SchedState g) :
    SchedState g :=
  l.foldl (fun s t => internalRunTask g t s) s

/-- `TaskRunner::pollTask` (run by context executor): no-op when the context
is already done; otherwise if the root task is `DONE`, mark the context done
(which, modelled from the spec §3, invokes the one-shot completion callback:
`doneCount` increments); otherwise compute the ready list with fresh
`readyTasks`/`checked` and dispatch it.  `pollCount` is ghost instrumentation
counting poll invocations. -/
def pollTask (g : TaskGraph) (root : Fin g.n) (s : SchedState g) :
    SchedState g :=
  let s0 := { s with pollCount := s.pollCount + 1 }
  if s0.doneFlag then s0
  else if s0.st root = State.DONE then
    { s0 with doneFlag := true, doneCount := s0.doneCount + 1 }
  else internalRunTasks g (readyList g s0.st root) s0

/-- `TaskRunner::setTaskDone` (run by context executor): mark the task done,
decrement the running counter, and poll again. -/
def setTaskDone (g : TaskGraph) (root : Fin g.n) (t : Fin g.n)
    (s : SchedState g) : SchedState g :=
  pollTask g root
    { s with st := Function.update s.st t State.DONE,
             runningTasks := s.runningTasks - 1 }

/-- One worker-domain completion: an in-flight task's body finished on the
worker executor and its completion unit (`setTaskDone` then re-poll) runs on
the context executor. -/
def completeTask (g : TaskGraph) (root : Fin g.n) (t : Fin g.n)
    (s : SchedState g) : SchedState g :=
  setTaskDone g root t { s with inflight := s.inflight.erase t }

/-- Initial control-domain state built by
`TaskRunner::runTask(rootTask, contextExecutor, doneTask)`: a fresh `Context`
(done flag clear, callback not yet invoked), all tasks still `BLOCKED`, no
task running or in flight. -/
def initState (g : TaskGraph) : SchedState g :=
  { st := fun _ => State.BLOCKED,
    runningTasks := 0,
    inflight := ∅,
    doneFlag := false,
    doneCount := 0,
    dispatchCount := fun _ => 0,
    pollCount := 0 }

/-- State after the first poll that `runTask` submits to the context
executor. -/
def startState (g : TaskGraph) (root : Fin g.n) : SchedState g :=
  pollTask g root (initState g)

/-- The scheduler's transition relation: any in-flight task may finish next;
its completion marks it `DONE` and triggers another poll. -/
inductive Step (g : TaskGraph) (root : Fin g.n) :
    SchedState g → SchedState g → Prop where
  | complete (t : Fin g.n) (s : SchedState g) (h : t ∈ s.inflight) :
      Step g root s (completeTask g root t s)

/-- States reachable from the start of a scheduling run. -/
def Reachable (g : TaskGraph) (root : Fin g.n) (s : SchedState g) : Prop :=
  Relation.ReflTransGen (Step g root) (startState g root) s

/-- A finite task graph is acyclic when the dependency edges admit a rank
function (equivalently, the dependency relation is well founded). -/
def Acyclic (g : TaskGraph) : Prop :=
  ∃ rank : Fin g.n → Nat, ∀ t : Fin g.n, ∀ d ∈ g.deps t, rank d < rank t

/-- Tasks reachable from `r` through dependency edges: the task graph of a
run is everything the root transitively depends on. -/
inductive Reach (g : TaskGraph) : Fin g.n → Fin g.n → Prop where
  | refl (t : Fin g.n) : Reach g t t
  | tail {r u d : Fin g.n} : Reach g r u → d ∈ g.deps u → Reach g r d

/-- Tasks reachable from `r` through a chain of `BLOCKED` tasks (including
both endpoints) — the frontier the readiness traversal explores. -/
inductive BlockedReach (g : TaskGraph) (st : Fin g.n → State) :
    Fin g.n → Fin g.n → Prop where
  | refl (t : Fin g.n) : st t = State.BLOCKED → BlockedReach g st t t
  | tail {r u d : Fin g.n} : BlockedReach g st r u → d ∈ g.deps u →
      st d = State.BLOCKED → BlockedReach g st r d

/-- Number of tasks not yet `DONE` — the termination measure of a run. -/
def countNonDone (g : TaskGraph) (s : SchedState g) : Nat :=
  (Finset.univ.filter (fun t => s.st t ≠ State.DONE)).card

/-- The two executors visible to the scheduler: `member` is the worker
executor `_executor` injected at `TaskRunner` construction; `context` is the
executor passed as argument to the asynchronous
`runTask(rootTask, contextExecutor, doneTask)` and wrapped into the Context,
which serializes the control plane (`Context::execute` submits to it). -/
inductive Exec where
  | member
  | context
deriving DecidableEq, Repr

/-- The kinds of unit of work the scheduler submits to an executor. -/
inductive UnitKind where
  | poll
  | taskBody
  | completion
deriving DecidableEq, Repr

/-- Submissions performed by the asynchronous entry point
`TaskRunner::runTask(rootTask, contextExecutor, doneTask)`: it constructs
the Context around the argument executor and performs exactly one
submission, `context->execute(makeLambdaTask([=]() { pollTask(context); }))`
— the first poll, submitted to the executor passed as argument. -/
def runTaskSubmissions : List (Exec × UnitKind) :=
  [(Exec.context, UnitKind.poll)]

/-- Submissions arising from `TaskRunner::internalRunTask` for one ready
task: the task body is submitted via `_executor.execute(...)` — the member
worker executor injected at construction — and, when the body finishes, it
runs `context->execute(std::move(done))`, posting the completion unit back
to the context executor. -/
def internalRunTaskSubmissions : List (Exec × UnitKind) :=
  [(Exec.member, UnitKind.taskBody), (Exec.context, UnitKind.completion)]

/-! ### Unfolding equations of the readiness traversal -/

theorem getReadyTasks_zero (g : TaskGraph) (st : Fin g.n → State)
    (task : Fin g.n) (acc : RTAcc g) :
    getReadyTasks g st 0 task acc = acc := rfl

theorem getReadyTasks_succ (g : TaskGraph) (st : Fin g.n → State) (f : Nat)
    (task : Fin g.n) (acc : RTAcc g) :
    getReadyTasks g st (f + 1) task acc =
      if st task ≠ State.BLOCKED then acc
      else if task ∈ acc.2 then acc
      else if (getReadyTasksDeps g st f (g.deps task) (acc.1, insert task acc.2)).1 then
        ((getReadyTasksDeps g st f (g.deps task) (acc.1, insert task acc.2)).2.1 ++ [task],
          (getReadyTasksDeps g st f (g.deps task) (acc.1, insert task acc.2)).2.2)
      else (getReadyTasksDeps g st f (g.deps task) (acc.1, insert task acc.2)).2 := rfl

theorem getReadyTasksDeps_nil (g : TaskGraph) (st : Fin g.n → State)
    (fuel : Nat) (acc : RTAcc g) :
    getReadyTasksDeps g st fuel [] acc = (true, acc) := rfl

theorem getReadyTasksDeps_cons (g : TaskGraph) (st : Fin g.n → State)
    (fuel : Nat) (d : Fin g.n) (rest : List (Fin g.n)) (acc : RTAcc g) :
    getReadyTasksDeps g st fuel (d :: rest) acc =
      match st d with
      | State.RUNNING => (false, (getReadyTasksDeps g st fuel rest acc).2)
      | State.DONE => getReadyTasksDeps g st fuel rest acc
      | State.BLOCKED =>
        (false,
          (getReadyTasksDeps g st fuel rest
            (getReadyTasks g st fuel d acc)).2) := by
  cases h : st d <;> simp [getReadyTasksDeps, getReadyTasksDepsAux, h]

theorem getReadyTasks_not_blocked (g : TaskGraph) (st : Fin g.n → State)
    (f : Nat) (task : Fin g.n) (acc : RTAcc g)
    (hb : st task ≠ State.BLOCKED) :
    getReadyTasks g st (f + 1) task acc = acc := by
  rw [getReadyTasks_succ, if_pos hb]

theorem getReadyTasks_checked (g : TaskGraph) (st : Fin g.n → State)
    (f : Nat) (task : Fin g.n) (acc : RTAcc g)
    (hb : st task = State.BLOCKED) (hc : task ∈ acc.2) :
    getReadyTasks g st (f + 1) task acc = acc := by
  rw [getReadyTasks_succ, if_neg (by simp [hb]), if_pos hc]

theorem getReadyTasks_main (g : TaskGraph) (st : Fin g.n → State)
    (f : Nat) (task : Fin g.n) (acc : RTAcc g)
    (hb : st task = State.BLOCKED) (hc : task ∉ acc.2) :
    getReadyTasks g st (f + 1) task acc =
      if (getReadyTasksDeps g st f (g.deps task) (acc.1, insert task acc.2)).1 then
        ((getReadyTasksDeps g st f (g.deps task) (acc.1, insert task acc.2)).2.1 ++ [task],
          (getReadyTasksDeps g st f (g.deps task) (acc.1, insert task acc.2)).2.2)
      else (getReadyTasksDeps g st f (g.deps task) (acc.1, insert task acc.2)).2 := by
  rw [getReadyTasks_succ, if_neg (by simp [hb]), if_neg hc]

theorem getReadyTasksDeps_cons_running (g : TaskGraph) (st : Fin g.n → State)
    (fuel : Nat) (d : Fin g.n) (rest : List (Fin g.n)) (acc : RTAcc g)
    (h : st d = State.RUNNING) :
    getReadyTasksDeps g st fuel (d :: rest) acc =
      (false, (getReadyTasksDeps g st fuel rest acc).2) := by
  simp [getReadyTasksDeps_cons, h]

theorem getReadyTasksDeps_cons_done (g : TaskGraph) (st : Fin g.n → State)
    (fuel : Nat) (d : Fin g.n) (rest : List (Fin g.n)) (acc : RTAcc g)
    (h : st d = State.DONE) :
    getReadyTasksDeps g st fuel (d :: rest) acc =
      getReadyTasksDeps g st fuel rest acc := by
  simp [getReadyTasksDeps_cons, h]

theorem getReadyTasksDeps_cons_blocked (g : TaskGraph) (st : Fin g.n → State)
    (fuel : Nat) (d : Fin g.n) (rest : List (Fin g.n)) (acc : RTAcc g)
    (h : st d = State.BLOCKED) :
    getReadyTasksDeps g st fuel (d :: rest) acc =
      (false,
        (getReadyTasksDeps g st fuel rest (getReadyTasks g st fuel d acc)).2) := by
  simp [getReadyTasksDeps_cons, h]

/-! ### The master specification of one traversal call

`GrtSpec st acc r` relates the accumulator `acc` a traversal call receives to
the accumulator `r` it returns: the ready list only grows, by pairwise
distinct tasks that are `BLOCKED` with all dependencies `DONE` and were not
yet visited; the `checked` set only grows; and every newly visited task is
`BLOCKED` (the traversal never descends into a `RUNNING` or `DONE` task). -/

def GrtSpec (g : TaskGraph) (st : Fin g.n → State) (acc r : RTAcc g) : Prop :=
  (∃ new, r.1 = acc.1 ++ new ∧ new.Nodup ∧
    ∀ u ∈ new, u ∈ r.2 ∧ u ∉ acc.2 ∧ st u = State.BLOCKED ∧
      ∀ d ∈ g.deps u, st d = State.DONE) ∧
  acc.2 ⊆ r.2 ∧
  (∀ u ∈ r.2, u ∉ acc.2 → st u = State.BLOCKED)

theorem grtSpec_refl (g : TaskGraph) (st : Fin g.n → State) (acc : RTAcc g) :
    GrtSpec g st acc acc :=
  ⟨⟨[], by simp⟩, le_refl _, fun u hu hnu => absurd hu hnu⟩

theorem grtSpec_trans {g : TaskGraph} {st : Fin g.n → State}
    {a b c : RTAcc g} (hab : GrtSpec g st a b) (hbc : GrtSpec g st b c) :
    GrtSpec g st a c := by
  obtain ⟨⟨n1, he1, hn1, hp1⟩, hs1, hb1⟩ := hab
  obtain ⟨⟨n2, he2, hn2, hp2⟩, hs2, hb2⟩ := hbc
  refine ⟨⟨n1 ++ n2, by simp [he2, he1], ?_, ?_⟩, hs1.trans hs2, ?_⟩
  · refine List.Nodup.append hn1 hn2 (fun u hu1 hu2 => ?_)
    exact (hp2 u hu2).2.1 (hp1 u hu1).1
  · intro u hu
    rcases List.mem_append.mp hu with h | h
    · obtain ⟨h1, h2, h3, h4⟩ := hp1 u h
      exact ⟨hs2 h1, h2, h3, h4⟩
    · obtain ⟨h1, h2, h3, h4⟩ := hp2 u h
      exact ⟨h1, fun hc => h2 (hs1 hc), h3, h4⟩
  · intro u hu hnu
    by_cases hub : u ∈ b.2
    · exact hb1 u hub hnu
    · exact hb2 u hu hub

/-- Master lemma, proved by mutual induction over fuel and the dependency
list: every call to `getReadyTasks` satisfies `GrtSpec`, and the dependency
loop additionally computes `ready = true` iff every dependency in the list is
`DONE`. -/
theorem grt_spec_all (g : TaskGraph) (st : Fin g.n → State) : ∀ fuel : Nat,
    (∀ task acc, GrtSpec g st acc (getReadyTasks g st fuel task acc)) ∧
    (∀ l acc, GrtSpec g st acc (getReadyTasksDeps g st fuel l acc).2 ∧
      ((getReadyTasksDeps g st fuel l acc).1 = true ↔
        ∀ d ∈ l, st d = State.DONE)) := by
  have hdeps : ∀ fuel : Nat,
      (∀ task acc, GrtSpec g st acc (getReadyTasks g st fuel task acc)) →
      ∀ l acc, GrtSpec g st acc (getReadyTasksDeps g st fuel l acc).2 ∧
        ((getReadyTasksDeps g st fuel l acc).1 = true ↔
          ∀ d ∈ l, st d = State.DONE) := by
    intro fuel hg l
    induction l with
    | nil => intro acc; simpa [getReadyTasksDeps_nil] using grtSpec_refl g st acc
    | cons d rest ihl =>
      intro acc
      rw [getReadyTasksDeps_cons]
      cases hd : st d with
      | RUNNING =>
        refine ⟨(ihl acc).1, ?_⟩
        simp only [Bool.false_eq_true, false_iff]
        intro hall
        exact absurd (hall d (by simp)) (by simp [hd])
      | DONE =>
        refine ⟨(ihl acc).1, ?_⟩
        rw [(ihl acc).2]
        constructor
        · intro hall d' hd'
          rcases List.mem_cons.mp hd' with h | h
          · rwa [h]
          · exact hall d' h
        · intro hall d' hd'
          exact hall d' (List.mem_cons_of_mem d hd')
      | BLOCKED =>
        refine ⟨grtSpec_trans (hg d acc) (ihl (getReadyTasks g st fuel d acc)).1, ?_⟩
        simp only [Bool.false_eq_true, false_iff]
        intro hall
        exact absurd (hall d (by simp)) (by simp [hd])
  intro fuel
  induction fuel with
  | zero =>
    constructor
    · intro task acc; simpa [getReadyTasks_zero] using grtSpec_refl g st acc
    · exact hdeps 0 (fun task acc => by
        simpa [getReadyTasks_zero] using grtSpec_refl g st acc)
  | succ f ih =>
    have hg : ∀ task acc, GrtSpec g st acc (getReadyTasks g st (f + 1) task acc) := by
      intro task acc
      rw [getReadyTasks_succ]
      by_cases h1 : st task = State.BLOCKED
      · by_cases h2 : task ∈ acc.2
        · simp [h1, h2]; exact grtSpec_refl g st acc
        · simp only [h1, ne_eq, not_true_eq_false, if_false, h2, if_neg (not_false)]
          set acc' : RTAcc g := (acc.1, insert task acc.2) with hacc'
          obtain ⟨⟨newd, he, hn, hp⟩, hsub, hblk⟩ :=
            (hdeps f ih.1 (g.deps task) acc').1
          have hready := (hdeps f ih.1 (g.deps task) acc').2
          set rd := getReadyTasksDeps g st f (g.deps task) acc' with hrd
          have hsub' : acc.2 ⊆ rd.2.2 :=
            (Finset.subset_insert task acc.2).trans hsub
          have htaskmem : task ∈ rd.2.2 := hsub (Finset.mem_insert_self task acc.2)
          have hnewprops : ∀ u ∈ newd, u ∈ rd.2.2 ∧ u ∉ acc.2 ∧
              st u = State.BLOCKED ∧ ∀ d ∈ g.deps u, st d = State.DONE := by
            intro u hu
            obtain ⟨p1, p2, p3, p4⟩ := hp u hu
            exact ⟨p1, fun hc => p2 (Finset.mem_insert_of_mem hc), p3, p4⟩
          have hblk' : ∀ u ∈ rd.2.2, u ∉ acc.2 → st u = State.BLOCKED := by
            intro u hu hnu
            by_cases hu' : u ∈ acc'.2
            · rcases Finset.mem_insert.mp hu' with h | h
              · rwa [h]
              · exact absurd h hnu
            · exact hblk u hu hu'
          by_cases hr : rd.1 = true
          · simp only [hr, if_true]
            refine ⟨⟨newd ++ [task], ?_, ?_, ?_⟩, hsub', hblk'⟩
            · simp [he]
            · refine List.Nodup.append hn (List.nodup_singleton task) ?_
              intro u hu1 hu2
              rw [List.mem_singleton.mp hu2] at hu1
              exact (hp task hu1).2.1 (Finset.mem_insert_self task acc.2)
            · intro u hu
              rcases List.mem_append.mp hu with h | h
              · exact hnewprops u h
              · rw [List.mem_singleton.mp h]
                exact ⟨htaskmem, h2, h1, hready.mp hr⟩
          · simp only [hr, if_false]
            exact ⟨⟨newd, he, hn, hnewprops⟩, hsub', hblk'⟩
      · simp [h1]; exact grtSpec_refl g st acc
    exact ⟨hg, hdeps (f + 1) hg⟩

theorem getReadyTasks_spec (g : TaskGraph) (st : Fin g.n → State) (fuel : Nat)
    (task : Fin g.n) (acc : RTAcc g) :
    GrtSpec g st acc (getReadyTasks g st fuel task acc) :=
  (grt_spec_all g st fuel).1 task acc

theorem getReadyTasksDeps_spec (g : TaskGraph) (st : Fin g.n → State)
    (fuel : Nat) (l : List (Fin g.n)) (acc : RTAcc g) :
    GrtSpec g st acc (getReadyTasksDeps g st fuel l acc).2 :=
  ((grt_spec_all g st fuel).2 l acc).1

theorem getReadyTasksDeps_ready_iff (g : TaskGraph) (st : Fin g.n → State)
    (fuel : Nat) (l : List (Fin g.n)) (acc : RTAcc g) :
    (getReadyTasksDeps g st fuel l acc).1 = true ↔
      ∀ d ∈ l, st d = State.DONE :=
  ((grt_spec_all g st fuel).2 l acc).2

/-- Soundness of one poll's ready list: every task the traversal reports
ready is `BLOCKED` and has all its dependencies `DONE` — this is exactly the
property the `assert(task->getState() == State::BLOCKED)` in
`TaskRunner::internalRunTask` relies on. -/
theorem readyList_sound (g : TaskGraph) (st : Fin g.n → State)
    (root : Fin g.n) :
    ∀ u ∈ readyList g st root,
      st u = State.BLOCKED ∧ ∀ d ∈ g.deps u, st d = State.DONE := by
  intro u hu
  obtain ⟨⟨new, he, _, hp⟩, _, _⟩ :=
    getReadyTasks_spec g st (g.n + 1) root ([], ∅)
  rw [readyList] at hu
  rw [he] at hu
  simp only [List.nil_append] at hu
  exact ⟨(hp u hu).2.2.1, (hp u hu).2.2.2⟩

/-- The ready list of one poll contains no duplicates: the `checked` set
ensures each task is appended at most once per poll. -/
theorem readyList_nodup (g : TaskGraph) (st : Fin g.n → State)
    (root : Fin g.n) : (readyList g st root).Nodup := by
  obtain ⟨⟨new, he, hn, _⟩, _, _⟩ :=
    getReadyTasks_spec g st (g.n + 1) root ([], ∅)
  rw [readyList, he]
  simpa using hn

/-- A `BLOCKED` task is in the `checked` set after the traversal visits it
(provided at least one unit of fuel, which `pollTask`'s fuel budget always
grants — see `getReadyTasks_fuel_stable`). -/
theorem getReadyTasks_blocked_mem (g : TaskGraph) (st : Fin g.n → State)
    (f : Nat) (task : Fin g.n) (acc : RTAcc g)
    (hb : st task = State.BLOCKED) :
    task ∈ (getReadyTasks g st (f + 1) task acc).2 := by
  rw [getReadyTasks_succ, if_neg (by simp [hb])]
  by_cases h2 : task ∈ acc.2
  · rw [if_pos h2]; exact h2
  · rw [if_neg h2]
    have hmem : task ∈
        (getReadyTasksDeps g st f (g.deps task) (acc.1, insert task acc.2)).2.2 :=
      (getReadyTasksDeps_spec g st f (g.deps task) _).2.1
        (Finset.mem_insert_self task acc.2)
    by_cases hr :
        (getReadyTasksDeps g st f (g.deps task) (acc.1, insert task acc.2)).1 = true
    · rw [if_pos hr]; exact hmem
    · rw [if_neg hr]; exact hmem

/-- Every `BLOCKED` dependency in the scanned list ends up in the `checked`
set: the loop recurses into each of them. -/
theorem getReadyTasksDeps_blocked_mem (g : TaskGraph) (st : Fin g.n → State)
    (f : Nat) (l : List (Fin g.n)) (acc : RTAcc g) (d : Fin g.n)
    (hd : d ∈ l) (hb : st d = State.BLOCKED) :
    d ∈ (getReadyTasksDeps g st (f + 1) l acc).2.2 := by
  induction l generalizing acc with
  | nil => cases hd
  | cons a rest ih =>
    rw [getReadyTasksDeps_cons]
    rcases List.mem_cons.mp hd with h | h
    · subst h
      rw [hb]
      exact (getReadyTasksDeps_spec g st (f + 1) rest _).2.1
        (getReadyTasks_blocked_mem g st f d acc hb)
    · cases ha : st a
      · exact (ih _ h)
      · exact (ih _ h)
      · exact (ih _ h)

/-- When every dependency in the list is `DONE`, the loop leaves the
accumulator untouched and reports the task ready. -/
theorem getReadyTasksDeps_allDone (g : TaskGraph) (st : Fin g.n → State)
    (fuel : Nat) (l : List (Fin g.n)) (acc : RTAcc g)
    (h : ∀ d ∈ l, st d = State.DONE) :
    getReadyTasksDeps g st fuel l acc = (true, acc) := by
  induction l with
  | nil => exact getReadyTasksDeps_nil g st fuel acc
  | cons a rest ih =>
    rw [getReadyTasksDeps_cons, h a (List.mem_cons_self a rest)]
    exact ih (fun d hd => h d (List.mem_cons_of_mem a hd))

/-- Inserting a fresh task cannot overflow the arena: the `checked` set stays
within the `g.n` tasks, so a not-yet-checked task witnesses
`acc.2.card < g.n`. -/
theorem checked_card_lt (g : TaskGraph) {task : Fin g.n} {c : Finset (Fin g.n)}
    (h : task ∉ c) : c.card < g.n := by
  have h1 : (insert task c).card = c.card + 1 := Finset.card_insert_of_not_mem h
  have h2 : (insert task c).card ≤ Fintype.card (Fin g.n) := Finset.card_le_univ _
  rw [Fintype.card_fin] at h2
  omega

/-- The dependency loop is a congruence in the recursive traversal: if two
fuel levels make `getReadyTasks` agree on every accumulator extending the
current one, the loop agrees on them too. -/
theorem getReadyTasksDeps_congr (g : TaskGraph) (st : Fin g.n → State)
    (fa fb : Nat) (l : List (Fin g.n)) :
    ∀ acc : RTAcc g,
      (∀ task : Fin g.n, ∀ acc' : RTAcc g, acc.2 ⊆ acc'.2 →
        getReadyTasks g st fa task acc' = getReadyTasks g st fb task acc') →
      getReadyTasksDeps g st fa l acc = getReadyTasksDeps g st fb l acc := by
  induction l with
  | nil => intro acc _; rw [getReadyTasksDeps_nil, getReadyTasksDeps_nil]
  | cons a rest ih =>
    intro acc hrec
    cases ha : st a with
    | RUNNING =>
      rw [getReadyTasksDeps_cons_running g st fa a rest acc ha,
        getReadyTasksDeps_cons_running g st fb a rest acc ha, ih acc hrec]
    | DONE =>
      rw [getReadyTasksDeps_cons_done g st fa a rest acc ha,
        getReadyTasksDeps_cons_done g st fb a rest acc ha, ih acc hrec]
    | BLOCKED =>
      rw [getReadyTasksDeps_cons_blocked g st fa a rest acc ha,
        getReadyTasksDeps_cons_blocked g st fb a rest acc ha,
        hrec a acc (subset_refl _)]
      have hsub : acc.2 ⊆ (getReadyTasks g st fb a acc).2 :=
        (getReadyTasks_spec g st fb a acc).2.1
      rw [ih (getReadyTasks g st fb a acc)
        (fun task acc' h' => hrec task acc' (hsub.trans h'))]

/-- Fuel irrelevance: any two sufficient fuel levels compute the same
traversal result.  Sufficient means strictly more fuel than there are
unchecked tasks; since every nested call first inserts a fresh task into
`checked`, this reproduces the source's unbounded recursion. -/
theorem getReadyTasks_stable (g : TaskGraph) (st : Fin g.n → State) :
    ∀ f1 f2 : Nat, ∀ task : Fin g.n, ∀ acc : RTAcc g,
      g.n - acc.2.card < f1 → g.n - acc.2.card < f2 →
      getReadyTasks g st f1 task acc = getReadyTasks g st f2 task acc := by
  intro f1
  induction f1 with
  | zero => intro f2 task acc h1 _; omega
  | succ f1 ih =>
    intro f2 task acc h1 h2
    match f2, h2 with
    | f2 + 1, h2 =>
      by_cases hb : st task = State.BLOCKED
      · by_cases hc : task ∈ acc.2
        · rw [getReadyTasks_checked g st f1 task acc hb hc,
            getReadyTasks_checked g st f2 task acc hb hc]
        · rw [getReadyTasks_main g st f1 task acc hb hc,
            getReadyTasks_main g st f2 task acc hb hc]
          have hlt : acc.2.card < g.n := checked_card_lt g hc
          have hcard : (insert task acc.2).card = acc.2.card + 1 :=
            Finset.card_insert_of_not_mem hc
          have hD : getReadyTasksDeps g st f1 (g.deps task) (acc.1, insert task acc.2) =
              getReadyTasksDeps g st f2 (g.deps task) (acc.1, insert task acc.2) := by
            refine getReadyTasksDeps_congr g st f1 f2 (g.deps task) _ ?_
            intro task' acc' hsub
            have hcard' : (insert task acc.2).card ≤ acc'.2.card :=
              Finset.card_le_card hsub
            refine ih f2 task' acc' (by omega) (by omega)
          rw [hD]
      · rw [getReadyTasks_not_blocked g st f1 task acc hb,
          getReadyTasks_not_blocked g st f2 task acc hb]

/-- Fuel irrelevance at the fuel budget `pollTask` uses: any fuel of at least
`g.n + 1` computes the same ready list from a fresh accumulator, i.e. the
per-poll visited set bounds the traversal regardless of graph shape (cycles
included). -/
theorem getReadyTasks_fuel_stable (g : TaskGraph) (st : Fin g.n → State)
    (root : Fin g.n) (f : Nat) (hf : g.n + 1 ≤ f) :
    getReadyTasks g st f root ([], ∅) =
      getReadyTasks g st (g.n + 1) root ([], ∅) := by
  refine getReadyTasks_stable g st f (g.n + 1) root ([], ∅) ?_ ?_ <;>
    simp only [Finset.card_empty] <;> omega

/-- Closure of the visited set: the blocked dependencies of every newly
visited task are themselves visited (the traversal recurses into each of
them), given sufficient fuel. -/
theorem getReadyTasks_closed (g : TaskGraph) (st : Fin g.n → State) :
    ∀ f1 : Nat, ∀ task : Fin g.n, ∀ acc : RTAcc g,
      g.n - acc.2.card < f1 →
      ∀ u ∈ (getReadyTasks g st f1 task acc).2, u ∉ acc.2 →
      ∀ d ∈ g.deps u, st d = State.BLOCKED →
        d ∈ (getReadyTasks g st f1 task acc).2 := by
  intro f1
  induction f1 with
  | zero => intro task acc h1; omega
  | succ f1 ih =>
    intro task acc h1 u hu hnu d hd hdb
    by_cases hb : st task = State.BLOCKED
    · by_cases hc : task ∈ acc.2
      · rw [getReadyTasks_checked g st f1 task acc hb hc] at hu ⊢
        exact absurd hu hnu
      · rw [getReadyTasks_main g st f1 task acc hb hc] at hu ⊢
        have hlt : acc.2.card < g.n := checked_card_lt g hc
        have hcard : (insert task acc.2).card = acc.2.card + 1 :=
          Finset.card_insert_of_not_mem hc
        have hf1 : 0 < f1 := by omega
        -- closure statement for the dependency loop at fuel f1
        have hDC : ∀ l : List (Fin g.n), ∀ acc' : RTAcc g,
            g.n - acc'.2.card < f1 →
            ∀ u' ∈ (getReadyTasksDeps g st f1 l acc').2.2, u' ∉ acc'.2 →
            ∀ d' ∈ g.deps u', st d' = State.BLOCKED →
              d' ∈ (getReadyTasksDeps g st f1 l acc').2.2 := by
          intro l
          induction l with
          | nil =>
            intro acc' _ u' hu' hnu'
            rw [getReadyTasksDeps_nil] at hu'
            exact absurd hu' hnu'
          | cons a rest ihl =>
            intro acc' hb' u' hu' hnu' d' hd' hdb'
            cases ha : st a with
            | RUNNING =>
              rw [getReadyTasksDeps_cons_running g st f1 a rest acc' ha] at hu' ⊢
              exact ihl acc' hb' u' hu' hnu' d' hd' hdb'
            | DONE =>
              rw [getReadyTasksDeps_cons_done g st f1 a rest acc' ha] at hu' ⊢
              exact ihl acc' hb' u' hu' hnu' d' hd' hdb'
            | BLOCKED =>
              rw [getReadyTasksDeps_cons_blocked g st f1 a rest acc' ha] at hu' ⊢
              have hsub1 : acc'.2 ⊆ (getReadyTasks g st f1 a acc').2 :=
                (getReadyTasks_spec g st f1 a acc').2.1
              have hsub2 : (getReadyTasks g st f1 a acc').2 ⊆
                  (getReadyTasksDeps g st f1 rest (getReadyTasks g st f1 a acc')).2.2 :=
                (getReadyTasksDeps_spec g st f1 rest _).2.1
              by_cases hua : u' ∈ (getReadyTasks g st f1 a acc').2
              · exact hsub2 (ih a acc' hb' u' hua hnu' d' hd' hdb')
              · have hcard2 : acc'.2.card ≤ (getReadyTasks g st f1 a acc').2.card :=
                  Finset.card_le_card hsub1
                exact ihl (getReadyTasks g st f1 a acc') (by omega) u' hu' hua d' hd' hdb'
        have hboundD : g.n - (insert task acc.2).card < f1 := by omega
        have hgoal : ∀ u ∈ (getReadyTasksDeps g st f1 (g.deps task)
              (acc.1, insert task acc.2)).2.2, u ∉ acc.2 →
            ∀ d ∈ g.deps u, st d = State.BLOCKED →
              d ∈ (getReadyTasksDeps g st f1 (g.deps task)
                (acc.1, insert task acc.2)).2.2 := by
          intro u hu hnu d hd hdb
          by_cases hut : u = task
          · subst hut
            obtain ⟨f2, rfl⟩ : ∃ f2, f1 = f2 + 1 := ⟨f1 - 1, by omega⟩
            exact getReadyTasksDeps_blocked_mem g st f2 (g.deps u)
              (acc.1, insert u acc.2) d hd hdb
          · refine hDC (g.deps task) (acc.1, insert task acc.2) hboundD u hu ?_ d hd hdb
            simp [hut, hnu]
        by_cases hr :
            (getReadyTasksDeps g st f1 (g.deps task) (acc.1, insert task acc.2)).1 = true
        · rw [if_pos hr] at hu ⊢
          exact hgoal u hu hnu d hd hdb
        · rw [if_neg hr] at hu ⊢
          exact hgoal u hu hnu d hd hdb
    · rw [getReadyTasks_not_blocked g st f1 task acc hb] at hu ⊢
      exact absurd hu hnu

/-- Auxiliary for `getReadyTasks_readyIn`: the dependency loop preserves the
property that every visited task whose dependencies are all `DONE` is on the
ready list. -/
theorem getReadyTasksDeps_readyIn (g : TaskGraph) (st : Fin g.n → State)
    (fuel : Nat)
    (hg : ∀ task : Fin g.n, ∀ acc : RTAcc g,
      (∀ u ∈ acc.2, (∀ d ∈ g.deps u, st d = State.DONE) → u ∈ acc.1) →
      ∀ u ∈ (getReadyTasks g st fuel task acc).2,
        (∀ d ∈ g.deps u, st d = State.DONE) →
          u ∈ (getReadyTasks g st fuel task acc).1) :
    ∀ l : List (Fin g.n), ∀ acc : RTAcc g,
      (∀ u ∈ acc.2, (∀ d ∈ g.deps u, st d = State.DONE) → u ∈ acc.1) →
      ∀ u ∈ (getReadyTasksDeps g st fuel l acc).2.2,
        (∀ d ∈ g.deps u, st d = State.DONE) →
          u ∈ (getReadyTasksDeps g st fuel l acc).2.1 := by
  intro l
  induction l with
  | nil =>
    intro acc hacc u hu hall
    rw [getReadyTasksDeps_nil] at hu ⊢
    exact hacc u hu hall
  | cons a rest ihl =>
    intro acc hacc u hu hall
    cases ha : st a with
    | RUNNING =>
      rw [getReadyTasksDeps_cons_running g st fuel a rest acc ha] at hu ⊢
      exact ihl acc hacc u hu hall
    | DONE =>
      rw [getReadyTasksDeps_cons_done g st fuel a rest acc ha] at hu ⊢
      exact ihl acc hacc u hu hall
    | BLOCKED =>
      rw [getReadyTasksDeps_cons_blocked g st fuel a rest acc ha] at hu ⊢
      exact ihl (getReadyTasks g st fuel a acc) (hg a acc hacc) u hu hall

/-- Every task visited by the traversal whose dependencies are all `DONE`
ends up on the ready list (assuming the incoming accumulator already has this
property): the recursive walk never strands a discovered ready task. -/
theorem getReadyTasks_readyIn (g : TaskGraph) (st : Fin g.n → State) :
    ∀ fuel : Nat, ∀ task : Fin g.n, ∀ acc : RTAcc g,
      (∀ u ∈ acc.2, (∀ d ∈ g.deps u, st d = State.DONE) → u ∈ acc.1) →
      ∀ u ∈ (getReadyTasks g st fuel task acc).2,
        (∀ d ∈ g.deps u, st d = State.DONE) →
          u ∈ (getReadyTasks g st fuel task acc).1 := by
  intro fuel
  induction fuel with
  | zero =>
    intro task acc hacc u hu hall
    rw [getReadyTasks_zero] at hu ⊢
    exact hacc u hu hall
  | succ f ih =>
    intro task acc hacc u hu hall
    by_cases hb : st task = State.BLOCKED
    · by_cases hc : task ∈ acc.2
      · rw [getReadyTasks_checked g st f task acc hb hc] at hu ⊢
        exact hacc u hu hall
      · rw [getReadyTasks_main g st f task acc hb hc] at hu ⊢
        by_cases hallt : ∀ d ∈ g.deps task, st d = State.DONE
        · rw [getReadyTasksDeps_allDone g st f (g.deps task) _ hallt] at hu ⊢
          rw [if_pos rfl] at hu ⊢
          rcases Finset.mem_insert.mp hu with h | h
          · subst h
            exact List.mem_append.mpr (Or.inr (by simp))
          · exact List.mem_append.mpr (Or.inl (hacc u h hall))
        · have hacc' : ∀ u' ∈ (acc.1, insert task acc.2).2,
              (∀ d ∈ g.deps u', st d = State.DONE) →
                u' ∈ (acc.1, insert task acc.2).1 := by
            intro u' hu' hall'
            rcases Finset.mem_insert.mp hu' with h | h
            · exact absurd (h ▸ hall') hallt
            · exact hacc u' h hall'
          have hdeps := getReadyTasksDeps_readyIn g st f ih (g.deps task)
            (acc.1, insert task acc.2) hacc' u
          by_cases hr : (getReadyTasksDeps g st f (g.deps task)
              (acc.1, insert task acc.2)).1 = true
          · rw [if_pos hr] at hu ⊢
            exact List.mem_append.mpr (Or.inl (hdeps hu hall))
          · rw [if_neg hr] at hu ⊢
            exact hdeps hu hall
    · rw [getReadyTasks_not_blocked g st f task acc hb] at hu ⊢
      exact hacc u hu hall

/-- Completeness of the traversal, part 1: every task reachable from the root
through a chain of `BLOCKED` tasks is visited by the poll's traversal. -/
theorem blockedReach_checked (g : TaskGraph) (st : Fin g.n → State)
    (root t : Fin g.n) (h : BlockedReach g st root t) :
    t ∈ (getReadyTasks g st (g.n + 1) root ([], ∅)).2 := by
  induction h with
  | refl ht => exact getReadyTasks_blocked_mem g st g.n root ([], ∅) ht
  | tail hru hd hdb ih =>
    exact getReadyTasks_closed g st (g.n + 1) root ([], ∅)
      (by simp) _ ih (Finset.not_mem_empty _) _ hd hdb

/-- Completeness of the traversal, part 2: a `BLOCKED` task reachable from
the root through blocked tasks whose dependencies are all `DONE` is on the
poll's ready list. -/
theorem blockedReach_ready (g : TaskGraph) (st : Fin g.n → State)
    (root t : Fin g.n) (h : BlockedReach g st root t)
    (hall : ∀ d ∈ g.deps t, st d = State.DONE) :
    t ∈ readyList g st root :=
  getReadyTasks_readyIn g st (g.n + 1) root ([], ∅)
    (fun u hu _ => absurd hu (Finset.not_mem_empty u))
    t (blockedReach_checked g st root t h) hall

/-- Progress: in an acyclic graph with a `BLOCKED` root and no task
`RUNNING`, some task reachable from the root through blocked tasks has all
its dependencies `DONE` (take a rank-minimal element of the blocked
frontier). -/
theorem exists_ready (g : TaskGraph) (root : Fin g.n) (st : Fin g.n → State)
    (hacyc : Acyclic g) (hroot : st root = State.BLOCKED)
    (hnorun : ∀ u : Fin g.n, st u ≠ State.RUNNING) :
    ∃ t : Fin g.n, BlockedReach g st root t ∧
      ∀ d ∈ g.deps t, st d = State.DONE := by
  obtain ⟨rank, hrank⟩ := hacyc
  suffices h : ∀ k : Nat, ∀ t : Fin g.n, rank t < k → BlockedReach g st root t →
      ∃ t' : Fin g.n, BlockedReach g st root t' ∧
        ∀ d ∈ g.deps t', st d = State.DONE by
    exact h (rank root + 1) root (by omega) (BlockedReach.refl root hroot)
  intro k
  induction k with
  | zero => intro t ht; omega
  | succ k ih =>
    intro t ht hbr
    by_cases hall : ∀ d ∈ g.deps t, st d = State.DONE
    · exact ⟨t, hbr, hall⟩
    · push_neg at hall
      obtain ⟨d, hd, hdne⟩ := hall
      have hdb : st d = State.BLOCKED := by
        cases hst : st d with
        | BLOCKED => rfl
        | RUNNING => exact absurd hst (hnorun d)
        | DONE => exact absurd hst hdne
      have hlt : rank d < rank t := hrank t d hd
      exact ih d (by omega) (BlockedReach.tail hbr hd hdb)

/-- In an acyclic graph whose root is still `BLOCKED` while no task is
`RUNNING`, a poll's ready list is nonempty: the scheduler cannot stall
before the root is done. -/
theorem readyList_ne_nil (g : TaskGraph) (root : Fin g.n)
    (st : Fin g.n → State) (hacyc : Acyclic g)
    (hroot : st root = State.BLOCKED)
    (hnorun : ∀ u : Fin g.n, st u ≠ State.RUNNING) :
    readyList g st root ≠ [] := by
  obtain ⟨t, hbr, hall⟩ := exists_ready g root st hacyc hroot hnorun
  have hmem := blockedReach_ready g st root t hbr hall
  intro hnil
  rw [hnil] at hmem
  cases hmem

/-! ### The control-domain state machine -/

/-- Effect of dispatching a duplicate-free list of `BLOCKED` tasks
(`TaskRunner::internalRunTasks`): each listed task becomes `RUNNING` and
in-flight, the running counter grows by the list length, each listed task's
dispatch count increments, and nothing else changes. -/
theorem internalRunTasks_spec (g : TaskGraph) (l : List (Fin g.n)) :
    ∀ s : SchedState g, l.Nodup → (∀ t ∈ l, s.st t = State.BLOCKED) →
      (∀ u : Fin g.n, (internalRunTasks g l s).st u =
        if u ∈ l then State.RUNNING else s.st u) ∧
      (internalRunTasks g l s).inflight = s.inflight ∪ l.toFinset ∧
      (internalRunTasks g l s).runningTasks = s.runningTasks + l.length ∧
      (internalRunTasks g l s).doneFlag = s.doneFlag ∧
      (internalRunTasks g l s).doneCount = s.doneCount ∧
      (internalRunTasks g l s).pollCount = s.pollCount ∧
      (∀ u : Fin g.n, (internalRunTasks g l s).dispatchCount u =
        if u ∈ l then s.dispatchCount u + 1 else s.dispatchCount u) := by
  induction l with
  | nil => intro s _ _; simp [internalRunTasks]
  | cons t rest ih =>
    intro s hnd hbl
    have hrun : internalRunTasks g (t :: rest) s =
        internalRunTasks g rest (internalRunTask g t s) := rfl
    have htr : t ∉ rest := (List.nodup_cons.mp hnd).1
    have hbl' : ∀ t' ∈ rest, (internalRunTask g t s).st t' = State.BLOCKED := by
      intro t' ht'
      have hne : t' ≠ t := fun h => htr (h ▸ ht')
      simp [internalRunTask, setTaskRunning, Function.update_noteq hne]
      exact hbl t' (List.mem_cons_of_mem t ht')
    obtain ⟨h1, h2, h3, h4, h5, h6, h7⟩ :=
      ih (internalRunTask g t s) (List.nodup_cons.mp hnd).2 hbl'
    rw [hrun]
    refine ⟨?_, ?_, ?_, ?_, ?_, ?_, ?_⟩
    · intro u
      rw [h1 u]
      by_cases hur : u ∈ rest
      · simp [hur, List.mem_cons_of_mem t hur]
      · by_cases hut : u = t
        · subst hut
          simp [hur, internalRunTask, setTaskRunning]
        · simp [hur, hut, internalRunTask, setTaskRunning,
            Function.update_noteq hut]
    · rw [h2]
      simp only [internalRunTask, setTaskRunning, List.toFinset_cons]
      rw [Finset.insert_union, Finset.union_insert]
    · rw [h3]
      simp only [internalRunTask, setTaskRunning, List.length_cons]
      omega
    · rw [h4]; rfl
    · rw [h5]; rfl
    · rw [h6]; rfl
    · intro u
      rw [h7 u]
      by_cases hur : u ∈ rest
      · have hune : u ≠ t := fun h => htr (h ▸ hur)
        simp [hur, List.mem_cons_of_mem t hur, internalRunTask, setTaskRunning,
          Function.update_noteq hune]
      · by_cases hut : u = t
        · subst hut
          simp [hur, internalRunTask, setTaskRunning]
        · simp [hur, hut, internalRunTask, setTaskRunning,
            Function.update_noteq hut]

/-- The control-domain invariant of the scheduler, maintained by every poll
and every completion:
* the in-flight set is exactly the set of `RUNNING` tasks;
* `_runningTasks` counts them;
* a task that left `BLOCKED` had (and keeps) all dependencies `DONE`;
* the context is marked done only once the root is `DONE`;
* the completion callback has run exactly once if the context is done and
  never otherwise;
* a task's dispatch count is `1` once it left `BLOCKED`, else `0`. -/
def Inv (g : TaskGraph) (root : Fin g.n) (s : SchedState g) : Prop :=
  s.inflight = Finset.univ.filter (fun t => s.st t = State.RUNNING) ∧
  s.runningTasks = s.inflight.card ∧
  (∀ t : Fin g.n, s.st t ≠ State.BLOCKED → ∀ d ∈ g.deps t, s.st d = State.DONE) ∧
  (s.doneFlag = true → s.st root = State.DONE) ∧
  s.doneCount = (if s.doneFlag then 1 else 0) ∧
  (∀ t : Fin g.n, s.dispatchCount t = if s.st t = State.BLOCKED then 0 else 1)

theorem initState_inv (g : TaskGraph) (root : Fin g.n) :
    Inv g root (initState g) := by
  refine ⟨?_, ?_, ?_, ?_, ?_, ?_⟩ <;> simp [initState, Inv]

/-- One poll either returns the state unchanged (context already done),
marks the context done and fires the callback (root `DONE`), or dispatches
the ready list — the three branches of `TaskRunner::pollTask`, with the
ghost poll counter bumped. -/
theorem pollTask_eq (g : TaskGraph) (root : Fin g.n) (s : SchedState g) :
    pollTask g root s =
      if s.doneFlag then { s with pollCount := s.pollCount + 1 }
      else if s.st root = State.DONE then
        { s with doneFlag := true, doneCount := s.doneCount + 1,
                 pollCount := s.pollCount + 1 }
      else internalRunTasks g (readyList g s.st root)
        { s with pollCount := s.pollCount + 1 } := rfl

/-- `pollTask` preserves the control-domain invariant. -/
theorem pollTask_inv (g : TaskGraph) (root : Fin g.n) (s : SchedState g)
    (h : Inv g root s) : Inv g root (pollTask g root s) := by
  obtain ⟨h1, h2, h3, h4, h5, h6⟩ := h
  rw [pollTask_eq]
  by_cases hflag : s.doneFlag = true
  · rw [if_pos hflag]
    exact ⟨h1, h2, h3, fun _ => h4 hflag, by simp [h5, hflag], h6⟩
  · rw [if_neg hflag]
    have hff : s.doneFlag = false := by
      cases hsf : s.doneFlag
      · rfl
      · exact absurd hsf hflag
    by_cases hroot : s.st root = State.DONE
    · rw [if_pos hroot]
      exact ⟨h1, h2, h3, fun _ => hroot, by simp [h5, hff], h6⟩
    · rw [if_neg hroot]
      have hsound := readyList_sound g s.st root
      have hnd := readyList_nodup g s.st root
      obtain ⟨k1, k2, k3, k4, k5, k6, k7⟩ :=
        internalRunTasks_spec g (readyList g s.st root)
          { s with pollCount := s.pollCount + 1 } hnd
          (fun t ht => (hsound t ht).1)
      set l := readyList g s.st root with hl
      set s' := internalRunTasks g l { s with pollCount := s.pollCount + 1 }
        with hs'
      have hlblocked : ∀ t ∈ l, s.st t = State.BLOCKED :=
        fun t ht => (hsound t ht).1
      have hldone : ∀ t ∈ l, ∀ d ∈ g.deps t, s.st d = State.DONE :=
        fun t ht => (hsound t ht).2
      refine ⟨?_, ?_, ?_, ?_, ?_, ?_⟩
      · rw [k2]
        ext u
        by_cases hul : u ∈ l
        · simp [hul, k1 u]
        · simp only [Finset.mem_union, List.mem_toFinset, hul, or_false,
            Finset.mem_filter, Finset.mem_univ, true_and, k1 u, if_neg hul]
          rw [h1]
          simp
      · rw [k3, k2]
        have hdisj : Disjoint s.inflight l.toFinset := by
          rw [Finset.disjoint_left]
          intro u hu hul
          rw [h1] at hu
          have hrun := (Finset.mem_filter.mp hu).2
          rw [hlblocked u (List.mem_toFinset.mp hul)] at hrun
          cases hrun
        rw [Finset.card_union_of_disjoint hdisj,
          List.toFinset_card_of_nodup hnd]
        simpa using congrArg (· + l.length) h2
      · intro t ht d hd
        rw [k1 t] at ht
        rw [k1 d]
        by_cases htl : t ∈ l
        · have hdd := hldone t htl d hd
          have hdnl : d ∉ l := fun hdl => by
            rw [hlblocked d hdl] at hdd
            cases hdd
          simp [hdnl, hdd]
        · rw [if_neg htl] at ht
          have hdd := h3 t ht d hd
          have hdnl : d ∉ l := fun hdl => by
            rw [hlblocked d hdl] at hdd
            cases hdd
          simp [hdnl, hdd]
      · rw [k4]
        intro hc
        exact absurd hc hflag
      · rw [k5, k4]
        simpa [hff] using h5
      · intro t
        rw [k7 t, k1 t]
        by_cases htl : t ∈ l
        · simp [htl, hlblocked t htl, h6 t]
        · simp [htl, h6 t]

/-- `completeTask` is `setTaskDone` (mark done, decrement the counter) on the
state with the completion unit consumed, followed by the re-poll. -/
theorem completeTask_eq (g : TaskGraph) (root : Fin g.n) (t : Fin g.n)
    (s : SchedState g) :
    completeTask g root t s =
      pollTask g root
        { s with st := Function.update s.st t State.DONE,
                 runningTasks := s.runningTasks - 1,
                 inflight := s.inflight.erase t } := rfl

/-- Marking an in-flight task done and decrementing the counter preserves the
control-domain invariant. -/
theorem doneUpdate_inv (g : TaskGraph) (root : Fin g.n) (t : Fin g.n)
    (s : SchedState g) (h : Inv g root s) (ht : t ∈ s.inflight) :
    Inv g root
      { s with st := Function.update s.st t State.DONE,
               runningTasks := s.runningTasks - 1,
               inflight := s.inflight.erase t } := by
  obtain ⟨h1, h2, h3, h4, h5, h6⟩ := h
  have htr : s.st t = State.RUNNING := by
    rw [h1] at ht
    exact (Finset.mem_filter.mp ht).2
  refine ⟨?_, ?_, ?_, ?_, ?_, ?_⟩
  · ext u
    by_cases hut : u = t
    · subst hut
      simp [Function.update_same]
    · simp only [Finset.mem_erase, hut, ne_eq, not_false_eq_true, true_and,
        Finset.mem_filter, Finset.mem_univ, Function.update_noteq hut]
      rw [h1]
      simp
  · simp only [h2, Finset.card_erase_of_mem ht]
  · intro u hu d hd
    by_cases hut : u = t
    · subst hut
      have hdd := h3 u (by rw [htr]; simp) d hd
      have hdt : d ≠ u := fun hh => by
        rw [hh, htr] at hdd
        cases hdd
      simp [Function.update_noteq hdt, hdd]
    · have hu' : s.st u ≠ State.BLOCKED := by
        have hu2 : Function.update s.st t State.DONE u ≠ State.BLOCKED := hu
        rwa [Function.update_noteq hut] at hu2
      have hdd := h3 u hu' d hd
      have hdt : d ≠ t := fun hh => by
        rw [hh, htr] at hdd
        cases hdd
      simp [Function.update_noteq hdt, hdd]
  · intro hc
    have hr := h4 hc
    have hrt : root ≠ t := fun hh => by
      rw [hh, htr] at hr
      cases hr
    simp [Function.update_noteq hrt, hr]
  · exact h5
  · intro u
    by_cases hut : u = t
    · subst hut
      simp [Function.update_same, h6 u, htr]
    · simp [Function.update_noteq hut, h6 u]

/-- A worker completion preserves the control-domain invariant. -/
theorem completeTask_inv (g : TaskGraph) (root : Fin g.n) (t : Fin g.n)
    (s : SchedState g) (h : Inv g root s) (ht : t ∈ s.inflight) :
    Inv g root (completeTask g root t s) := by
  rw [completeTask_eq]
  exact pollTask_inv g root _ (doneUpdate_inv g root t s h ht)

theorem step_inv (g : TaskGraph) (root : Fin g.n) (s s' : SchedState g)
    (h : Inv g root s) (hstep : Step g root s s') : Inv g root s' := by
  cases hstep with
  | complete t _ ht => exact completeTask_inv g root t s h ht

theorem startState_inv (g : TaskGraph) (root : Fin g.n) :
    Inv g root (startState g root) :=
  pollTask_inv g root (initState g) (initState_inv g root)

/-- Every state of a scheduling run satisfies the control-domain
invariant. -/
theorem reachable_inv (g : TaskGraph) (root : Fin g.n) (s : SchedState g)
    (h : Reachable g root s) : Inv g root s := by
  induction h with
  | refl => exact startState_inv g root
  | tail hr hstep ih => exact step_inv g root _ _ ih hstep

/-- A poll can only turn `BLOCKED` tasks `RUNNING`, and only tasks whose
dependencies were all `DONE` at the time of the poll; every other task state
is untouched. -/
theorem pollTask_st_cases (g : TaskGraph) (root : Fin g.n) (s : SchedState g) :
    ∀ u : Fin g.n,
      (pollTask g root s).st u = s.st u ∨
      (s.st u = State.BLOCKED ∧ (∀ d ∈ g.deps u, s.st d = State.DONE) ∧
        (pollTask g root s).st u = State.RUNNING) := by
  intro u
  rw [pollTask_eq]
  by_cases hflag : s.doneFlag = true
  · rw [if_pos hflag]; exact Or.inl rfl
  · rw [if_neg hflag]
    by_cases hroot : s.st root = State.DONE
    · rw [if_pos hroot]; exact Or.inl rfl
    · rw [if_neg hroot]
      have hsound := readyList_sound g s.st root
      have hnd := readyList_nodup g s.st root
      obtain ⟨k1, _, _, _, _, _, _⟩ :=
        internalRunTasks_spec g (readyList g s.st root)
          { s with pollCount := s.pollCount + 1 } hnd
          (fun t ht => (hsound t ht).1)
      rw [k1 u]
      by_cases hul : u ∈ readyList g s.st root
      · exact Or.inr ⟨(hsound u hul).1, (hsound u hul).2, by rw [if_pos hul]⟩
      · exact Or.inl (by rw [if_neg hul])

/-- A poll never takes a task out of `DONE`. -/
theorem pollTask_preserves_done (g : TaskGraph) (root : Fin g.n)
    (s : SchedState g) (u : Fin g.n) (hu : s.st u = State.DONE) :
    (pollTask g root s).st u = State.DONE := by
  rcases pollTask_st_cases g root s u with hc | ⟨hb, _, _⟩
  · rw [hc, hu]
  · rw [hu] at hb
    cases hb

/-- The completed task is `DONE` after its completion step (and the re-poll
cannot resurrect it). -/
theorem completeTask_st_done (g : TaskGraph) (root : Fin g.n) (t : Fin g.n)
    (s : SchedState g) : (completeTask g root t s).st t = State.DONE := by
  rw [completeTask_eq]
  apply pollTask_preserves_done
  exact Function.update_same t State.DONE s.st

/-- Classification of one scheduler transition: each task keeps its state,
moves `BLOCKED → RUNNING` (it was dispatched by the completion's re-poll) or
moves `RUNNING → DONE` (it is the completed task). -/
theorem step_st_cases (g : TaskGraph) (root : Fin g.n) (s s' : SchedState g)
    (hInv : Inv g root s) (hstep : Step g root s s') :
    ∀ u : Fin g.n,
      s'.st u = s.st u ∨
      (s.st u = State.BLOCKED ∧ s'.st u = State.RUNNING) ∨
      (s.st u = State.RUNNING ∧ s'.st u = State.DONE) := by
  cases hstep with
  | complete t _ ht =>
    intro u
    have htr : s.st t = State.RUNNING := by
      rw [hInv.1] at ht
      exact (Finset.mem_filter.mp ht).2
    by_cases hut : u = t
    · subst hut
      exact Or.inr (Or.inr ⟨htr, completeTask_st_done g root u s⟩)
    · rw [completeTask_eq]
      set s1 : SchedState g :=
        { s with st := Function.update s.st t State.DONE,
                 runningTasks := s.runningTasks - 1,
                 inflight := s.inflight.erase t } with hs1
      have hstu : s1.st u = s.st u := Function.update_noteq hut State.DONE s.st
      rcases pollTask_st_cases g root s1 u with hc | ⟨hb, _, hr⟩
      · exact Or.inl (by rw [hc, hstu])
      · exact Or.inr (Or.inl ⟨by rw [← hstu, hb], hr⟩)

/-- Each completion strictly decreases the number of tasks that are not yet
`DONE`: runs are finite. -/
theorem step_countNonDone (g : TaskGraph) (root : Fin g.n)
    (s s' : SchedState g) (hInv : Inv g root s) (hstep : Step g root s s') :
    countNonDone g s' < countNonDone g s := by
  have hcases := step_st_cases g root s s' hInv hstep
  cases hstep with
  | complete t _ ht =>
    have htr : s.st t = State.RUNNING := by
      rw [hInv.1] at ht
      exact (Finset.mem_filter.mp ht).2
    apply Finset.card_lt_card
    constructor
    · intro u hu
      rw [Finset.mem_filter] at hu ⊢
      refine ⟨Finset.mem_univ u, ?_⟩
      intro hdone
      rcases hcases u with hc | ⟨hb, _⟩ | ⟨_, hd⟩
      · exact hu.2 (by rw [hc, hdone])
      · rw [hb] at hdone
        cases hdone
      · exact hu.2 hd
    · intro hsub
      have hmem : t ∈ Finset.univ.filter
          (fun u => s.st u ≠ State.DONE) := by
        rw [Finset.mem_filter]
        refine ⟨Finset.mem_univ t, ?_⟩
        rw [htr]
        simp
      have hmem' := hsub hmem
      rw [Finset.mem_filter] at hmem'
      exact hmem'.2 (completeTask_st_done g root t s)

/-- If a poll leaves no task in flight, it has marked the context done: in an
acyclic graph the scheduler never stalls with work left. -/
theorem pollTask_progress (g : TaskGraph) (root : Fin g.n)
    (s : SchedState g) (hacyc : Acyclic g) (h : Inv g root s)
    (hterm : (pollTask g root s).inflight = ∅) :
    (pollTask g root s).doneFlag = true := by
  obtain ⟨h1, h2, h3, h4, h5, h6⟩ := h
  rw [pollTask_eq] at hterm ⊢
  by_cases hflag : s.doneFlag = true
  · rw [if_pos hflag]; exact hflag
  · rw [if_neg hflag] at hterm ⊢
    by_cases hroot : s.st root = State.DONE
    · rw [if_pos hroot]
    · rw [if_neg hroot] at hterm ⊢
      exfalso
      have hsound := readyList_sound g s.st root
      have hnd := readyList_nodup g s.st root
      obtain ⟨_, k2, _, _, _, _, _⟩ :=
        internalRunTasks_spec g (readyList g s.st root)
          { s with pollCount := s.pollCount + 1 } hnd
          (fun t ht => (hsound t ht).1)
      rw [k2] at hterm
      have hlnil : (readyList g s.st root).toFinset = ∅ :=
        Finset.union_eq_empty.mp hterm |>.2
      have hinfl : s.inflight = ∅ := Finset.union_eq_empty.mp hterm |>.1
      have hnorun : ∀ u : Fin g.n, s.st u ≠ State.RUNNING := by
        intro u hu
        have : u ∈ s.inflight := by
          rw [h1]
          simp [hu]
        rw [hinfl] at this
        cases this
      have hrootb : s.st root = State.BLOCKED := by
        cases hst : s.st root with
        | BLOCKED => rfl
        | RUNNING => exact absurd hst (hnorun root)
        | DONE => exact absurd hst hroot
      refine readyList_ne_nil g root s.st hacyc hrootb hnorun ?_
      rwa [← List.toFinset_eq_empty_iff]

/-- A run never gets stuck before completion: any reachable state with no
in-flight task has the context marked done. -/
theorem reachable_terminal_flag (g : TaskGraph) (root : Fin g.n)
    (hacyc : Acyclic g) : ∀ s : SchedState g, Reachable g root s →
      s.inflight = ∅ → s.doneFlag = true := by
  intro s h
  induction h with
  | refl =>
    exact pollTask_progress g root (initState g) hacyc (initState_inv g root)
  | tail hr hstep ih =>
    clear ih
    cases hstep with
    | complete t sPrev ht =>
      rw [completeTask_eq]
      exact pollTask_progress g root _ hacyc
        (doneUpdate_inv g root t _ (reachable_inv g root _ hr) ht)

/-- Once the root is `DONE`, every task transitively reachable from it
through dependency edges is `DONE`: `DONE` status propagates down the graph
because a task leaves `BLOCKED` only after its dependencies are `DONE`. -/
theorem root_done_all_done (g : TaskGraph) (root : Fin g.n)
    (s : SchedState g)
    (h3 : ∀ t : Fin g.n, s.st t ≠ State.BLOCKED →
      ∀ d ∈ g.deps t, s.st d = State.DONE)
    (hroot : s.st root = State.DONE) :
    ∀ t : Fin g.n, Reach g root t → s.st t = State.DONE := by
  intro t h
  induction h with
  | refl => exact hroot
  | tail hru hd ih => exact h3 _ (by rw [ih]; simp) _ hd

/-- A poll leaves a blocked dependency cycle untouched: every member has a
blocked dependency, hence is never ready, hence is never dispatched. -/
theorem pollTask_cycle_blocked (g : TaskGraph) (root : Fin g.n)
    (s : SchedState g) (C : Finset (Fin g.n))
    (hcyc : ∀ t ∈ C, ∃ d ∈ g.deps t, d ∈ C)
    (hC : ∀ t ∈ C, s.st t = State.BLOCKED) :
    ∀ t ∈ C, (pollTask g root s).st t = State.BLOCKED := by
  intro t htC
  rcases pollTask_st_cases g root s t with hc | ⟨_, hdeps, _⟩
  · rw [hc]; exact hC t htC
  · obtain ⟨d, hd, hdC⟩ := hcyc t htC
    have hdd := hdeps d hd
    rw [hC d hdC] at hdd
    cases hdd

/-- One completion leaves a blocked dependency cycle blocked: the completed
task was `RUNNING` and so is not on the cycle, and the re-poll cannot
dispatch a cycle member. -/
theorem completeTask_cycle_blocked (g : TaskGraph) (root : Fin g.n)
    (t0 : Fin g.n) (s0 : SchedState g) (C : Finset (Fin g.n))
    (hcyc : ∀ t ∈ C, ∃ d ∈ g.deps t, d ∈ C) (hInv : Inv g root s0)
    (ht0 : t0 ∈ s0.inflight) (hC : ∀ t ∈ C, s0.st t = State.BLOCKED) :
    ∀ t ∈ C, (completeTask g root t0 s0).st t = State.BLOCKED := by
  have htr : s0.st t0 = State.RUNNING := by
    rw [hInv.1] at ht0
    exact (Finset.mem_filter.mp ht0).2
  have ht0C : t0 ∉ C := fun hc => by
    rw [hC t0 hc] at htr
    cases htr
  rw [completeTask_eq]
  apply pollTask_cycle_blocked g root _ C hcyc
  intro u huC
  have hne : u ≠ t0 := fun h => ht0C (h ▸ huC)
  have hval : Function.update s0.st t0 State.DONE u = State.BLOCKED := by
    rw [Function.update_noteq hne]
    exact hC u huC
  exact hval

/-- Tasks on a cycle of `BLOCKED` tasks stay `BLOCKED` in every reachable
state of the run. -/
theorem reachable_cycle_blocked (g : TaskGraph) (root : Fin g.n)
    (C : Finset (Fin g.n)) (hcyc : ∀ t ∈ C, ∃ d ∈ g.deps t, d ∈ C) :
    ∀ s : SchedState g, Reachable g root s →
      ∀ t ∈ C, s.st t = State.BLOCKED := by
  intro s h
  induction h with
  | refl =>
    exact pollTask_cycle_blocked g root (initState g) C hcyc (fun t _ => rfl)
  | tail hr hstep ih =>
    cases hstep with
    | complete t0 _ ht0 =>
      exact completeTask_cycle_blocked g root t0 _ C hcyc
        (reachable_inv g root _ hr) ht0 ih

/-- No member of a cycle of `BLOCKED` tasks is ever on a poll's ready
list. -/
theorem cycle_not_ready (g : TaskGraph) (root : Fin g.n)
    (st : Fin g.n → State) (C : Finset (Fin g.n))
    (hcyc : ∀ t ∈ C, ∃ d ∈ g.deps t, d ∈ C)
    (hC : ∀ t ∈ C, st t = State.BLOCKED) :
    ∀ t ∈ C, t ∉ readyList g st root := by
  intro t htC hready
  obtain ⟨d, hd, hdC⟩ := hcyc t htC
  have hdd := (readyList_sound g st root t hready).2 d hd
  rw [hC d hdC] at hdd
  cases hdd

/-- In a quiescent reachable state of an acyclic run, the whole graph
reachable from the root is `DONE` and the completion callback has run
exactly once. -/
theorem reachable_terminal (g : TaskGraph) (root : Fin g.n)
    (hacyc : Acyclic g) (s : SchedState g) (hreach : Reachable g root s)
    (hterm : s.inflight = ∅) :
    (∀ t : Fin g.n, Reach g root t → s.st t = State.DONE) ∧
      s.doneCount = 1 := by
  have hInv := reachable_inv g root s hreach
  have hflag := reachable_terminal_flag g root hacyc s hreach hterm
  have hroot := hInv.2.2.2.1 hflag
  refine ⟨root_done_all_done g root s hInv.2.2.1 hroot, ?_⟩
  rw [hInv.2.2.2.2.1, if_pos hflag]

/-! ### Concrete graphs used to witness the theorems -/

/-- Single-task graph: one root with no dependencies (Scenario D). -/
abbrev gOne : TaskGraph := { n := 1, deps := fun _ => [] }

/-- Diamond graph (Scenario C): task 0 depends on 1 and 2, which both
depend on 3. -/
abbrev gDiamond : TaskGraph :=
  { n := 4,
    deps := fun t =>
      if t.val = 0 then [1, 2]
      else if t.val = 1 then [3]
      else if t.val = 2 then [3]
      else [] }

/-- A malformed graph: the root depends on task 1, which depends on
itself. -/
abbrev gCycle : TaskGraph := { n := 2, deps := fun _ => [1] }

/-- Sibling graph for the no-short-circuit property: the root depends on
task 1 (running in `stSibling`) and then task 2 (blocked,
dependency-free). -/
abbrev gSibling : TaskGraph :=
  { n := 3, deps := fun t => if t.val = 0 then [1, 2] else [] }

/-- Diamond states mid-run: 3 done, 2 running, 1 and 0 blocked. -/
def stDiamondMid : Fin 4 → State := fun t =>
  if t.val = 3 then State.DONE
  else if t.val = 2 then State.RUNNING
  else State.BLOCKED

/-- States on `gSibling` with task 1 running, others blocked. -/
def stSibling : Fin 3 → State := fun t =>
  if t.val = 1 then State.RUNNING else State.BLOCKED

/-- A context already marked done, over the single-task graph. -/
def doneStateOne : SchedState gOne :=
  { initState gOne with doneFlag := true, doneCount := 1 }

/-! ### The claims -/

/-- C5: Polling a Context that is already marked done is a no-op: it changes
no task state, dispatches no task (the in-flight set and every dispatch
count are unchanged), leaves the running counter unchanged, and never
re-invokes the completion callback (`doneCount` unchanged). -/
theorem poll_done_context_noop (g : TaskGraph) (root : Fin g.n)
    (s : SchedState g) (h : s.doneFlag = true) :
    (pollTask g root s).st = s.st ∧
    (pollTask g root s).inflight = s.inflight ∧
    (pollTask g root s).runningTasks = s.runningTasks ∧
    (pollTask g root s).dispatchCount = s.dispatchCount ∧
    (pollTask g root s).doneFlag = s.doneFlag ∧
    (pollTask g root s).doneCount = s.doneCount := by
  rw [pollTask_eq, if_pos h]
  exact ⟨rfl, rfl, rfl, rfl, by rw [h], rfl⟩

theorem poll_done_context_noop_witness :
    doneStateOne.doneFlag = true ∧
    ((pollTask gOne 0 doneStateOne).st = doneStateOne.st ∧
     (pollTask gOne 0 doneStateOne).inflight = doneStateOne.inflight ∧
     (pollTask gOne 0 doneStateOne).runningTasks = doneStateOne.runningTasks ∧
     (pollTask gOne 0 doneStateOne).dispatchCount = doneStateOne.dispatchCount ∧
     (pollTask gOne 0 doneStateOne).doneFlag = doneStateOne.doneFlag ∧
     (pollTask gOne 0 doneStateOne).doneCount = doneStateOne.doneCount) :=
  ⟨rfl, poll_done_context_noop gOne 0 doneStateOne rfl⟩

/-- C2: one traversal call appends a task to the ready list iff the task is
`BLOCKED`, was not already visited in this poll, and has every dependency
`DONE`; it returns without touching anything at a task that is not
`BLOCKED` or already visited; every task it newly visits is `BLOCKED` (so
it never descends into a `RUNNING` or `DONE` task); and it recurses into
exactly the `BLOCKED` dependencies (each of them ends up visited). -/
theorem readiness_traversal_spec (g : TaskGraph) (st : Fin g.n → State)
    (f : Nat) (task : Fin g.n) (acc : RTAcc g) :
    (st task ≠ State.BLOCKED → getReadyTasks g st (f + 2) task acc = acc) ∧
    (task ∈ acc.2 → getReadyTasks g st (f + 2) task acc = acc) ∧
    (task ∉ acc.1 →
      (task ∈ (getReadyTasks g st (f + 2) task acc).1 ↔
        st task = State.BLOCKED ∧ task ∉ acc.2 ∧
          ∀ d ∈ g.deps task, st d = State.DONE)) ∧
    (∀ u ∈ (getReadyTasks g st (f + 2) task acc).2, u ∉ acc.2 →
      st u = State.BLOCKED) ∧
    (st task = State.BLOCKED → task ∉ acc.2 →
      ∀ d ∈ g.deps task, st d = State.BLOCKED →
        d ∈ (getReadyTasks g st (f + 2) task acc).2) := by
  refine ⟨?_, ?_, ?_, ?_, ?_⟩
  · intro hb
    exact getReadyTasks_not_blocked g st (f + 1) task acc hb
  · intro hc
    by_cases hb : st task = State.BLOCKED
    · exact getReadyTasks_checked g st (f + 1) task acc hb hc
    · exact getReadyTasks_not_blocked g st (f + 1) task acc hb
  · intro hnl
    constructor
    · intro hmem
      obtain ⟨⟨new, he, _, hp⟩, _, _⟩ :=
        getReadyTasks_spec g st (f + 2) task acc
      rw [he] at hmem
      rcases List.mem_append.mp hmem with h | h
      · exact absurd h hnl
      · exact ⟨(hp task h).2.2.1, (hp task h).2.1, (hp task h).2.2.2⟩
    · rintro ⟨hb, hc, hall⟩
      rw [getReadyTasks_main g st (f + 1) task acc hb hc,
        getReadyTasksDeps_allDone g st (f + 1) (g.deps task) _ hall,
        if_pos rfl]
      simp
  · exact (getReadyTasks_spec g st (f + 2) task acc).2.2
  · intro hb hc d hd hdb
    rw [getReadyTasks_main g st (f + 1) task acc hb hc]
    have hmem := getReadyTasksDeps_blocked_mem g st f (g.deps task)
      (acc.1, insert task acc.2) d hd hdb
    by_cases hr : (getReadyTasksDeps g st (f + 1) (g.deps task)
        (acc.1, insert task acc.2)).1 = true
    · rw [if_pos hr]; exact hmem
    · rw [if_neg hr]; exact hmem

theorem readiness_traversal_spec_witness :
    stDiamondMid 0 = State.BLOCKED ∧
    (1 : Fin 4) ∈ gDiamond.deps 0 ∧ stDiamondMid 1 = State.BLOCKED ∧
    (1 : Fin 4) ∈ (getReadyTasks gDiamond stDiamondMid 2 0 ([], ∅)).2 :=
  ⟨by decide, by decide, by decide,
    (readiness_traversal_spec gDiamond stDiamondMid 0 0 ([], ∅)).2.2.2.2
      (by decide) (by decide) 1 (by decide) (by decide)⟩

/-- C10: a `RUNNING` dependency clears the `ready` flag but does not
short-circuit the scan: the remaining dependencies are processed exactly as
they would be without it, so `BLOCKED` dependencies occurring after a
running one are still recursed into and the ready tasks behind them are
discovered in the same poll. -/
theorem running_dep_no_shortcircuit (g : TaskGraph) (st : Fin g.n → State)
    (fuel : Nat) (d : Fin g.n) (rest : List (Fin g.n)) (acc : RTAcc g)
    (hd : st d = State.RUNNING) :
    (getReadyTasksDeps g st fuel (d :: rest) acc).1 = false ∧
    (getReadyTasksDeps g st fuel (d :: rest) acc).2 =
      (getReadyTasksDeps g st fuel rest acc).2 := by
  rw [getReadyTasksDeps_cons_running g st fuel d rest acc hd]
  exact ⟨rfl, rfl⟩

theorem running_dep_no_shortcircuit_witness :
    stSibling 1 = State.RUNNING ∧
    ((getReadyTasksDeps gSibling stSibling 3 [1, 2] ([], {0})).1 = false ∧
      (getReadyTasksDeps gSibling stSibling 3 [1, 2] ([], {0})).2 =
        (getReadyTasksDeps gSibling stSibling 3 [2] ([], {0})).2) ∧
    (2 : Fin 3) ∈ readyList gSibling stSibling 0 :=
  ⟨by decide,
    running_dep_no_shortcircuit gSibling stSibling 3 1 [2] ([], {0})
      (by decide),
    by decide⟩

/-- C9: if the graph contains a cycle of `BLOCKED` tasks, its members stay
`BLOCKED` in every reachable state, are never on any poll's ready list
(hence never dispatched or `RUNNING`), and every poll still returns
normally — the per-poll visited set bounds the traversal, so any fuel of at
least `g.n + 1` computes the same (total) result.  No error or diagnostic
exists anywhere in the model: polling is a total function and the run
silently stops dispatching. -/
theorem cyclic_graph_silent_deadlock (g : TaskGraph) (root : Fin g.n)
    (C : Finset (Fin g.n)) (hcyc : ∀ t ∈ C, ∃ d ∈ g.deps t, d ∈ C)
    (s : SchedState g) (hreach : Reachable g root s) :
    (∀ t ∈ C, s.st t = State.BLOCKED ∧ t ∉ readyList g s.st root) ∧
    (∀ f : Nat, g.n + 1 ≤ f →
      getReadyTasks g s.st f root ([], ∅) =
        getReadyTasks g s.st (g.n + 1) root ([], ∅)) := by
  have hblocked := reachable_cycle_blocked g root C hcyc s hreach
  refine ⟨?_, ?_⟩
  · intro t htC
    exact ⟨hblocked t htC,
      cycle_not_ready g root s.st C hcyc hblocked t htC⟩
  · intro f hf
    exact getReadyTasks_fuel_stable g s.st root f hf

/-- C3: a task is never set `RUNNING` while any of its dependencies is not
`DONE`: (1) every task a poll reports ready is `BLOCKED` with all its
dependencies `DONE` at the time of that poll; (2) any task a poll newly
turns `RUNNING` was `BLOCKED` with all dependencies `DONE` at the time of
that poll; (3) in every reachable state, every `RUNNING` task has all its
dependencies `DONE`. -/
theorem never_running_with_pending_dep (g : TaskGraph) (root : Fin g.n) :
    (∀ st : Fin g.n → State, ∀ u ∈ readyList g st root,
      st u = State.BLOCKED ∧ ∀ d ∈ g.deps u, st d = State.DONE) ∧
    (∀ s : SchedState g, ∀ u : Fin g.n,
      (pollTask g root s).st u = State.RUNNING → s.st u ≠ State.RUNNING →
        s.st u = State.BLOCKED ∧ ∀ d ∈ g.deps u, s.st d = State.DONE) ∧
    (∀ s : SchedState g, Reachable g root s → ∀ u : Fin g.n,
      s.st u = State.RUNNING → ∀ d ∈ g.deps u, s.st d = State.DONE) := by
  refine ⟨fun st => readyList_sound g st root, ?_, ?_⟩
  · intro s u hr hnr
    rcases pollTask_st_cases g root s u with hc | ⟨hb, hdeps, _⟩
    · rw [hc] at hr
      exact absurd hr hnr
    · exact ⟨hb, hdeps⟩
  · intro s hreach u hu
    exact (reachable_inv g root s hreach).2.2.1 u (by rw [hu]; simp)

theorem never_running_with_pending_dep_witness :
    (pollTask gOne 0 (initState gOne)).st 0 = State.RUNNING ∧
    ((initState gOne).st 0 = State.BLOCKED ∧
      ∀ d ∈ gOne.deps 0, (initState gOne).st d = State.DONE) :=
  ⟨by decide,
    (never_running_with_pending_dep gOne 0).2.1 (initState gOne) 0
      (by decide) (by decide)⟩

/-- C4: across every scheduler transition each task either keeps its state,
moves `BLOCKED → RUNNING`, or moves `RUNNING → DONE` — never backward and
never skipping `RUNNING` — and in every reachable state (before and after
the transition) each task has been scheduled at most once; in particular
the shared node of a diamond is dispatched at most once despite two
dependents. -/
theorem monotone_lifecycle (g : TaskGraph) (root : Fin g.n)
    (s s' : SchedState g) (hreach : Reachable g root s)
    (hstep : Step g root s s') :
    (∀ u : Fin g.n,
      s'.st u = s.st u ∨
      (s.st u = State.BLOCKED ∧ s'.st u = State.RUNNING) ∨
      (s.st u = State.RUNNING ∧ s'.st u = State.DONE)) ∧
    (∀ u : Fin g.n, s.dispatchCount u ≤ 1) ∧
    (∀ u : Fin g.n, s'.dispatchCount u ≤ 1) := by
  have hInv := reachable_inv g root s hreach
  have hInv' := step_inv g root s s' hInv hstep
  refine ⟨step_st_cases g root s s' hInv hstep, ?_, ?_⟩
  · intro u
    rw [hInv.2.2.2.2.2 u]
    by_cases h : s.st u = State.BLOCKED <;> simp [h]
  · intro u
    rw [hInv'.2.2.2.2.2 u]
    by_cases h : s'.st u = State.BLOCKED <;> simp [h]

/-- The diamond run driven to quiescence: dispatch 3; complete 3 (dispatch
1 and 2); complete 1; complete 2 (dispatch 0); complete 0 (callback). -/
def diamondRun : SchedState gDiamond :=
  completeTask gDiamond 0 0
    (completeTask gDiamond 0 2
      (completeTask gDiamond 0 1
        (completeTask gDiamond 0 3 (startState gDiamond 0))))

theorem diamondRun_reachable : Reachable gDiamond 0 diamondRun :=
  Relation.ReflTransGen.tail
    (Relation.ReflTransGen.tail
      (Relation.ReflTransGen.tail
        (Relation.ReflTransGen.tail Relation.ReflTransGen.refl
          (Step.complete 3 _ (by decide)))
        (Step.complete 1 _ (by decide)))
      (Step.complete 2 _ (by decide)))
    (Step.complete 0 _ (by decide))

theorem monotone_lifecycle_witness :
    (startState gDiamond 0).dispatchCount 3 ≤ 1 ∧
    diamondRun.dispatchCount 3 = 1 :=
  ⟨(monotone_lifecycle gDiamond 0 (startState gDiamond 0) _
      Relation.ReflTransGen.refl (Step.complete 3 _ (by decide))).2.1 3,
    by decide⟩

/-- The single-task run driven to quiescence. -/
def termOne : SchedState gOne :=
  completeTask gOne 0 0 (startState gOne 0)

theorem termOne_reachable : Reachable gOne 0 termOne :=
  Relation.ReflTransGen.tail Relation.ReflTransGen.refl
    (Step.complete 0 _ (by decide))

/-- C8: in every reachable state the scheduler's running counter equals the
number of tasks currently `RUNNING` (it is incremented exactly by
`setTaskRunning` and decremented exactly by `setTaskDone`); it is zero
before the first task starts, and zero again whenever nothing is in flight —
in particular after a completed run, so the destructor's
`assert(_runningTasks == 0)` holds. -/
theorem running_counter_invariant (g : TaskGraph) (root : Fin g.n)
    (s : SchedState g) (hreach : Reachable g root s) :
    s.runningTasks =
      (Finset.univ.filter (fun t => s.st t = State.RUNNING)).card ∧
    (initState g).runningTasks = 0 ∧
    (s.inflight = ∅ → s.runningTasks = 0) := by
  have hInv := reachable_inv g root s hreach
  refine ⟨by rw [hInv.2.1, hInv.1], rfl, ?_⟩
  intro h
  rw [hInv.2.1, h]
  rfl

theorem running_counter_invariant_witness :
    termOne.inflight = ∅ ∧
    (termOne.runningTasks =
        (Finset.univ.filter
          (fun t => termOne.st t = State.RUNNING)).card ∧
      (initState gOne).runningTasks = 0 ∧
      (termOne.inflight = ∅ → termOne.runningTasks = 0)) :=
  ⟨by decide, running_counter_invariant gOne 0 termOne termOne_reachable⟩

/-- C7 as stated fails on the code: a single poll of the dependency-free
root dispatches it but does not mark it done and does not fire the
callback — after the one (initial) poll the task is `RUNNING`, not `DONE`,
and the callback count is still `0`.  Marking done and firing the callback
take the completion and the one further poll it triggers. -/
theorem single_poll_not_done_cex :
    (pollTask gOne 0 (initState gOne)).st 0 = State.RUNNING ∧
    (pollTask gOne 0 (initState gOne)).st 0 ≠ State.DONE ∧
    (pollTask gOne 0 (initState gOne)).doneCount = 0 := by
  refine ⟨by decide, by decide, by decide⟩

/-- C7 amended: for a root task with zero dependencies, a single poll marks
it ready and running and dispatches it; its completion marks it done and
triggers exactly one further poll, in which the completion callback fires;
after that nothing is in flight, so no further polls occur (two polls in
total). -/
theorem single_task_two_polls :
    readyList gOne (initState gOne).st 0 = [0] ∧
    (startState gOne 0).st 0 = State.RUNNING ∧
    (startState gOne 0).pollCount = 1 ∧
    (startState gOne 0).inflight = {0} ∧
    (completeTask gOne 0 0 (startState gOne 0)).st 0 = State.DONE ∧
    (completeTask gOne 0 0 (startState gOne 0)).doneFlag = true ∧
    (completeTask gOne 0 0 (startState gOne 0)).doneCount = 1 ∧
    (completeTask gOne 0 0 (startState gOne 0)).pollCount = 2 ∧
    (completeTask gOne 0 0 (startState gOne 0)).inflight = ∅ := by
  refine ⟨by decide, by decide, by decide, by decide, by decide, by decide,
    by decide, by decide, by decide⟩

/-- C1: for a finite acyclic task graph (all tasks start `BLOCKED`), the
scheduling run — initial poll, then one poll after each task completion —
terminates: every step strictly decreases the number of not-yet-`DONE`
tasks, and from a quiescent reachable state (nothing in flight) no further
step is possible, every task in the graph (reachable from the root) is
`DONE`, and the completion callback has been invoked exactly once. -/
theorem scheduler_terminates_all_done (g : TaskGraph) (root : Fin g.n)
    (hacyc : Acyclic g) (s : SchedState g) (hreach : Reachable g root s) :
    (∀ s' : SchedState g, Step g root s s' →
      countNonDone g s' < countNonDone g s) ∧
    (s.inflight = ∅ →
      (∀ s' : SchedState g, ¬ Step g root s s') ∧
      (∀ t : Fin g.n, Reach g root t → s.st t = State.DONE) ∧
      s.doneCount = 1) := by
  have hInv := reachable_inv g root s hreach
  refine ⟨fun s' hstep => step_countNonDone g root s s' hInv hstep, ?_⟩
  intro hterm
  obtain ⟨hdone, hcount⟩ :=
    reachable_terminal g root hacyc s hreach hterm
  refine ⟨?_, hdone, hcount⟩
  intro s' hstep
  cases hstep with
  | complete t _ ht =>
    rw [hterm] at ht
    exact absurd ht (Finset.not_mem_empty t)

theorem scheduler_terminates_all_done_witness :
    diamondRun.inflight = ∅ ∧ diamondRun.doneCount = 1 ∧
    (∀ t : Fin 4, Reach gDiamond 0 t → diamondRun.st t = State.DONE) :=
  have h := scheduler_terminates_all_done gDiamond 0
    ⟨fun t => 3 - t.val, by decide⟩ diamondRun diamondRun_reachable
  ⟨by decide, (h.2 (by decide)).2.2, (h.2 (by decide)).2.1⟩

/-- C6 as stated fails on the code: the executor argument of the
asynchronous `runTask(rootTask, contextExecutor, doneTask)` is not the
worker executor on which task bodies run.  The single unit `runTask`
submits — the first poll — goes through the Context to the argument
executor, while `internalRunTask` submits every task body to the member
`_executor` injected at `TaskRunner` construction: no task body is ever
submitted to the argument executor. -/
theorem async_executor_arg_cex :
    runTaskSubmissions = [(Exec.context, UnitKind.poll)] ∧
    (∀ e ∈ internalRunTaskSubmissions, e.2 = UnitKind.taskBody →
      e.1 ≠ Exec.context) ∧
    (Exec.member, UnitKind.taskBody) ∈ internalRunTaskSubmissions := by
  refine ⟨rfl, by decide, by decide⟩

/-- C6 amended: the asynchronous entry point
`runTask(rootTask, contextExecutor, doneTask)` takes as its executor
argument the serializing context executor of the control plane — its one
submission, the first poll, goes to that executor, and completion units are
posted back to it, while task bodies run on the worker `_executor` injected
at `TaskRunner` construction.  It constructs a fresh Context — done flag
clear, callback not yet run, nothing running or in flight — and submits the
first poll as the run's first control-domain action (`startState` is by
definition that poll applied to the initial state; the non-blocking return
and the serialized control domain are what the step-relation model encodes:
the caller performs no further action and all control operations are atomic
transitions).  The callback runs at most once in any reachable state, runs
only when the whole reachable graph is `DONE`, and has run exactly once
whenever the run is quiescent. -/
theorem async_run_context_executor (g : TaskGraph) (root : Fin g.n)
    (hacyc : Acyclic g) (s : SchedState g) (hreach : Reachable g root s) :
    runTaskSubmissions = [(Exec.context, UnitKind.poll)] ∧
    internalRunTaskSubmissions =
      [(Exec.member, UnitKind.taskBody), (Exec.context, UnitKind.completion)] ∧
    (initState g).doneFlag = false ∧ (initState g).doneCount = 0 ∧
    (initState g).runningTasks = 0 ∧ (initState g).inflight = ∅ ∧
    startState g root = pollTask g root (initState g) ∧
    s.doneCount ≤ 1 ∧
    (s.doneCount = 1 →
      ∀ t : Fin g.n, Reach g root t → s.st t = State.DONE) ∧
    (s.inflight = ∅ → s.doneCount = 1) := by
  have hInv := reachable_inv g root s hreach
  refine ⟨rfl, rfl, rfl, rfl, rfl, rfl, rfl, ?_, ?_, ?_⟩
  · rw [hInv.2.2.2.2.1]
    by_cases h : s.doneFlag = true <;> simp [h]
  · intro h1
    have hflag : s.doneFlag = true := by
      by_cases h : s.doneFlag = true
      · exact h
      · rw [hInv.2.2.2.2.1, if_neg h] at h1
        cases h1
    exact root_done_all_done g root s hInv.2.2.1 (hInv.2.2.2.1 hflag)
  · intro hterm
    exact (reachable_terminal g root hacyc s hreach hterm).2

theorem async_run_context_executor_witness :
    (initState gOne).doneFlag = false ∧ termOne.doneCount = 1 :=
  have h := async_run_context_executor gOne 0 ⟨fun _ => 0, by decide⟩
    termOne termOne_reachable
  ⟨h.2.2.1, h.2.2.2.2.2.2.2.2.2 (by decide)⟩

theorem cyclic_graph_silent_deadlock_witness :
    (∀ t ∈ ({1} : Finset (Fin 2)), ∃ d ∈ gCycle.deps t,
      d ∈ ({1} : Finset (Fin 2))) ∧
    ((∀ t ∈ ({1} : Finset (Fin 2)),
        (startState gCycle 0).st t = State.BLOCKED ∧
        t ∉ readyList gCycle (startState gCycle 0).st 0) ∧
      (∀ f : Nat, gCycle.n + 1 ≤ f →
        getReadyTasks gCycle (startState gCycle 0).st f 0 ([], ∅) =
          getReadyTasks gCycle (startState gCycle 0).st (gCycle.n + 1) 0
            ([], ∅))) :=
  ⟨by decide,
    cyclic_graph_silent_deadlock gCycle 0 {1} (by decide)
      (startState gCycle 0) Relation.ReflTransGen.refl⟩

end Initializer
